import Mathlib

/-!
Verification of the servo sweep routine in `src/src/servo.cpp` of the
Flipper repository.

The routine issues two kinds of commands to the platform: position writes
to the servo driver (`myservo.write(pos)`) and blocking millisecond delays
(`delay(ms)`).  We embed one call of `servo(int delayTime)` as the list of
commands it issues, in order, and `servoInit` as a transformer on the
servo-handle configuration state.
-/

set_option maxRecDepth 10000

namespace Flipper

/-- Commands that the sweep routine issues to the platform: a position
write to the servo driver, or a blocking delay of a number of
milliseconds (`delay` takes an unsigned 32-bit count on the target). -/
inductive ServoEvent where
  | write (pos : Int)
  | delay (ms : Nat)
deriving DecidableEq, Repr

/-- Conversion performed at the call `delay(delayTime)`: the C `int`
argument is converted to the unsigned 32-bit parameter type of `delay`,
i.e. reduced modulo 2^32. -/
def toUInt32Ms (d : Int) : Nat := (d % (2 ^ 32 : Int)).toNat

/-- Fixed servo pin: `const int servoPin = 33;`. -/
def servoPin : Nat := 33

/-- Configuration and position state of the servo handle `myservo`.
Modelled from the spec: the actuator handle owns the PWM carrier
frequency, the bound pin, and the pulse-width bounds (the driver library
itself is platform code outside this repository); a position write stores
the commanded angle and touches nothing else. -/
structure ServoState where
  periodHertz : Nat
  pin : Option Nat
  minPulseUs : Nat
  maxPulseUs : Nat
  position : Option Int
deriving DecidableEq, Repr

/-- Modelled from the spec: `Servo::setPeriodHertz` stores the PWM
carrier frequency on the handle. -/
def setPeriodHertz (s : ServoState) (hz : Nat) : ServoState :=
  { s with periodHertz := hz }

/-- Modelled from the spec: `Servo::attach(pin, min, max)` binds the
handle to the pin and stores the pulse-width bounds in microseconds. -/
def attach (s : ServoState) (p mn mx : Nat) : ServoState :=
  { s with pin := some p, minPulseUs := mn, maxPulseUs := mx }

/-- Embedding of `servoInit()`:
`myservo.setPeriodHertz(333); myservo.attach(servoPin, 900, 2100);`. -/
def servoInit (s : ServoState) : ServoState :=
  attach (setPeriodHertz s 333) servoPin 900 2100

/-- Embedding of the first loop of `servo`:
`for(int pos = 176; pos >= 45; pos--) { myservo.write(pos); delay(1); }`,
parametrised by the loop variable. -/
def sweepDownFrom (pos : Int) : List ServoEvent :=
  if h : 45 ≤ pos then
    ServoEvent.write pos :: ServoEvent.delay 1 :: sweepDownFrom (pos - 1)
  else
    []
termination_by (pos - 44).toNat
decreasing_by omega

/-- Embedding of the second loop of `servo`:
`for(int pos = 45; pos <= 176; pos++) { myservo.write(pos); }`
(the per-step `delay(1)` is commented out in the source),
parametrised by the loop variable. -/
def sweepUpFrom (pos : Int) : List ServoEvent :=
  if h : pos ≤ 176 then
    ServoEvent.write pos :: sweepUpFrom (pos + 1)
  else
    []
termination_by (177 - pos).toNat
decreasing_by omega

/-- Embedding of one call of `servo(int delayTime)` as the ordered list
of commands it issues: the descending loop, `delay(300)`, the ascending
loop, and the trailing `delay(delayTime)`. -/
def servo (delayTime : Int) : List ServoEvent :=
  sweepDownFrom 176 ++ [ServoEvent.delay 300] ++ sweepUpFrom 45
    ++ [ServoEvent.delay (toUInt32Ms delayTime)]

/-- Effect of one command on the servo-handle state: a write stores the
commanded angle, a delay changes nothing. -/
def applyEvent (s : ServoState) : ServoEvent → ServoState
  | ServoEvent.write p => { s with position := some p }
  | ServoEvent.delay _ => s

/-- One call of `servo` seen as a state transformer together with the
trace of commands it issues. -/
def servoRun (s : ServoState) (delayTime : Int) : ServoState × List ServoEvent :=
  ((servo delayTime).foldl applyEvent s, servo delayTime)

/-- Angles commanded by a trace, in order. -/
def writesOf (tr : List ServoEvent) : List Int :=
  tr.filterMap (fun e =>
    match e with
    | ServoEvent.write p => some p
    | ServoEvent.delay _ => none)

/-- Delay durations requested by a trace, in order. -/
def delaysOf (tr : List ServoEvent) : List Nat :=
  tr.filterMap (fun e =>
    match e with
    | ServoEvent.write _ => none
    | ServoEvent.delay m => some m)

/-- Total blocking duration of a trace, in milliseconds: the sum of all
durations passed to the delay primitive. -/
def delayTotal (tr : List ServoEvent) : Nat := (delaysOf tr).sum

/-- The descending integer sequence 176, 175, …, 45 (132 values). -/
def descAngles : List Int := (List.range 132).map (fun n : Nat => 176 - (n : Int))

/-- The ascending integer sequence 45, 46, …, 176 (132 values). -/
def ascAngles : List Int := (List.range 132).map (fun n : Nat => 45 + (n : Int))

/-- Structural companion to `sweepDownFrom`: the descending loop with an
explicit iteration count, defined by structural recursion so that it
evaluates by `decide`. -/
def downEvents : Nat → Int → List ServoEvent
  | 0, _ => []
  | Nat.succ n, pos =>
      ServoEvent.write pos :: ServoEvent.delay 1 :: downEvents n (pos - 1)

/-- Structural companion to `sweepUpFrom`: the ascending loop with an
explicit iteration count. -/
def upEvents : Nat → Int → List ServoEvent
  | 0, _ => []
  | Nat.succ n, pos => ServoEvent.write pos :: upEvents n (pos + 1)

lemma sweepDownFrom_stop (pos : Int) (h : pos < 45) : sweepDownFrom pos = [] := by
  rw [sweepDownFrom]
  simp [not_le.mpr h]

lemma sweepDownFrom_step (pos : Int) (h : 45 ≤ pos) :
    sweepDownFrom pos
      = ServoEvent.write pos :: ServoEvent.delay 1 :: sweepDownFrom (pos - 1) := by
  rw [sweepDownFrom]
  simp [h]

lemma sweepUpFrom_stop (pos : Int) (h : 176 < pos) : sweepUpFrom pos = [] := by
  rw [sweepUpFrom]
  simp [not_le.mpr h]

lemma sweepUpFrom_step (pos : Int) (h : pos ≤ 176) :
    sweepUpFrom pos = ServoEvent.write pos :: sweepUpFrom (pos + 1) := by
  rw [sweepUpFrom]
  simp [h]

lemma sweepDownFrom_eq_downEvents (n : Nat) :
    ∀ pos : Int, pos = 44 + n → sweepDownFrom pos = downEvents n pos := by
  induction n with
  | zero =>
      intro pos hp
      rw [sweepDownFrom_stop pos (by omega)]
      rfl
  | succ n ih =>
      intro pos hp
      rw [sweepDownFrom_step pos (by omega)]
      rw [ih (pos - 1) (by push_cast at hp ⊢; omega)]
      rfl

lemma sweepUpFrom_eq_upEvents (n : Nat) :
    ∀ pos : Int, pos = 177 - n → sweepUpFrom pos = upEvents n pos := by
  induction n with
  | zero =>
      intro pos hp
      rw [sweepUpFrom_stop pos (by omega)]
      rfl
  | succ n ih =>
      intro pos hp
      rw [sweepUpFrom_step pos (by push_cast at hp ⊢; omega)]
      rw [ih (pos + 1) (by push_cast at hp ⊢; omega)]
      rfl

/-- Closed form of one `servo` call: both loops replaced by their
structural companions with the concrete iteration counts. -/
lemma servo_eq (d : Int) :
    servo d
      = downEvents 132 176 ++ [ServoEvent.delay 300] ++ upEvents 132 45
          ++ [ServoEvent.delay (toUInt32Ms d)] := by
  unfold servo
  rw [sweepDownFrom_eq_downEvents 132 176 (by norm_num),
    sweepUpFrom_eq_upEvents 132 45 (by norm_num)]

lemma writesOf_append (t u : List ServoEvent) :
    writesOf (t ++ u) = writesOf t ++ writesOf u := by
  simp [writesOf]

lemma delaysOf_append (t u : List ServoEvent) :
    delaysOf (t ++ u) = delaysOf t ++ delaysOf u := by
  simp [delaysOf]

/-- Angles commanded by one `servo` call: exactly the descending sequence
followed by the ascending sequence, independently of the delay argument. -/
lemma writesOf_servo (d : Int) :
    writesOf (servo d) = descAngles ++ ascAngles := by
  rw [servo_eq, writesOf_append, writesOf_append, writesOf_append]
  have h1 : writesOf (downEvents 132 176) = descAngles := by decide
  have h2 : writesOf (upEvents 132 45) = ascAngles := by decide
  have h3 : writesOf [ServoEvent.delay 300] = [] := rfl
  have h4 : writesOf [ServoEvent.delay (toUInt32Ms d)] = [] := rfl
  rw [h1, h2, h3, h4]
  simp

/-- Total requested delay of one `servo` call. -/
lemma delayTotal_servo (d : Int) :
    delayTotal (servo d) = 432 + toUInt32Ms d := by
  rw [delayTotal, servo_eq, delaysOf_append, delaysOf_append, delaysOf_append]
  have h1 : delaysOf (downEvents 132 176) = List.replicate 132 1 := by decide
  have h2 : delaysOf (upEvents 132 45) = [] := by decide
  have h3 : delaysOf [ServoEvent.delay 300] = [300] := rfl
  have h4 : delaysOf [ServoEvent.delay (toUInt32Ms d)] = [toUInt32Ms d] := rfl
  rw [h1, h2, h3, h4]
  simp only [List.sum_append, List.sum_replicate, List.sum_cons, List.sum_nil,
    smul_eq_mul]
  omega

/-- The last command of one `servo` call is the trailing delay with the
converted caller-supplied duration. -/
lemma servo_getLast (d : Int) :
    (servo d).getLast? = some (ServoEvent.delay (toUInt32Ms d)) := by
  rw [servo_eq]
  rw [show downEvents 132 176 ++ [ServoEvent.delay 300] ++ upEvents 132 45
        ++ [ServoEvent.delay (toUInt32Ms d)]
      = (downEvents 132 176 ++ [ServoEvent.delay 300] ++ upEvents 132 45)
        ++ [ServoEvent.delay (toUInt32Ms d)] by simp]
  exact List.getLast?_concat _

/-- Structure of one `servo` call: each descending write is immediately
followed by a 1 ms delay, a single 300 ms delay separates the phases, the
ascending writes carry no inter-step delay, and the converted
caller-supplied delay trails. -/
lemma servo_structure (d : Int) :
    servo d
      = descAngles.flatMap (fun p => [ServoEvent.write p, ServoEvent.delay 1])
          ++ [ServoEvent.delay 300]
          ++ ascAngles.map ServoEvent.write
          ++ [ServoEvent.delay (toUInt32Ms d)] := by
  rw [servo_eq]
  have h1 : downEvents 132 176
      = descAngles.flatMap (fun p => [ServoEvent.write p, ServoEvent.delay 1]) := by
    decide
  have h2 : upEvents 132 45 = ascAngles.map ServoEvent.write := by decide
  rw [h1, h2]

lemma foldl_applyEvent_config (tr : List ServoEvent) :
    ∀ s : ServoState,
      (tr.foldl applyEvent s).periodHertz = s.periodHertz
        ∧ (tr.foldl applyEvent s).pin = s.pin
        ∧ (tr.foldl applyEvent s).minPulseUs = s.minPulseUs
        ∧ (tr.foldl applyEvent s).maxPulseUs = s.maxPulseUs := by
  induction tr with
  | nil => intro s; exact ⟨rfl, rfl, rfl, rfl⟩
  | cons e t ih =>
      intro s
      have h := ih (applyEvent s e)
      have hc : (applyEvent s e).periodHertz = s.periodHertz
          ∧ (applyEvent s e).pin = s.pin
          ∧ (applyEvent s e).minPulseUs = s.minPulseUs
          ∧ (applyEvent s e).maxPulseUs = s.maxPulseUs := by
        cases e <;> exact ⟨rfl, rfl, rfl, rfl⟩
      simp only [List.foldl_cons]
      exact ⟨h.1.trans hc.1, h.2.1.trans hc.2.1, h.2.2.1.trans hc.2.2.1,
        h.2.2.2.trans hc.2.2.2⟩

/-- C1: for every cycle-delay argument, one `servo` call commands exactly
the descending sequence 176, 175, …, 45 (132 values) and then exactly the
ascending sequence 45, 46, …, 176 (132 values), and no other angles. -/
theorem C1_sweep_angle_sequence (d : Int) :
    writesOf (servo d) = descAngles ++ ascAngles
      ∧ descAngles = (List.range 132).map (fun i => 176 - (i : Int))
      ∧ ascAngles = (List.range 132).map (fun i => 45 + (i : Int))
      ∧ descAngles.length = 132 ∧ ascAngles.length = 132 :=
  ⟨writesOf_servo d, rfl, rfl, by decide, by decide⟩

/-- C2: for a cycle delay `d` in the representable unsigned range, the
total requested blocking duration of one `servo` call is exactly
`432 + d` milliseconds, within 1 ms (one timer tick) of the claimed
131 + 300 + 0 + d. -/
theorem C2_total_blocking_duration (d : Int) (h0 : 0 ≤ d) (h1 : d < 2 ^ 32) :
    (delayTotal (servo d) : Int) = 432 + d
      ∧ |(delayTotal (servo d) : Int) - (131 + 300 + 0 + d)| ≤ 1 := by
  have ht : delayTotal (servo d) = 432 + toUInt32Ms d := delayTotal_servo d
  have hu : (toUInt32Ms d : Int) = d := by unfold toUInt32Ms at *; omega
  rw [ht]
  constructor
  · push_cast [hu]
    ring
  · rw [abs_le]
    push_cast [hu]
    omega

/-- C2 witness: the theorem instantiated at a concrete cycle delay of
7 ms. -/
theorem C2_total_blocking_duration_witness :
    (0 : Int) ≤ 7 ∧ (7 : Int) < 2 ^ 32
      ∧ ((delayTotal (servo 7) : Int) = 432 + 7
          ∧ |(delayTotal (servo 7) : Int) - (131 + 300 + 0 + 7)| ≤ 1) :=
  ⟨by norm_num, by norm_num,
    C2_total_blocking_duration 7 (by norm_num) (by norm_num)⟩

/-- C3: one `servo` call issues a nonempty finite trace of commands whose
writes are exactly one full back-and-forth traversal, and whose last
action is the trailing caller-supplied pause. -/
theorem C3_single_traversal_then_return (d : Int) :
    servo d ≠ []
      ∧ (servo d).getLast? = some (ServoEvent.delay (toUInt32Ms d))
      ∧ writesOf (servo d) = descAngles ++ ascAngles := by
  refine ⟨?_, servo_getLast d, writesOf_servo d⟩
  intro hnil
  have := servo_getLast d
  rw [hnil] at this
  exact Option.noConfusion this

/-- C4: `servoInit` sets the carrier frequency to 333 Hz and attaches the
servo to pin 33 with pulse-width bounds 900 and 2100 µs, touching nothing
else, and a second invocation re-applies exactly the same configuration
(idempotence). -/
theorem C4_init_config_idempotent (s : ServoState) :
    servoInit s
        = { periodHertz := 333, pin := some servoPin, minPulseUs := 900,
            maxPulseUs := 2100, position := s.position }
      ∧ (servoInit s).periodHertz = 333
      ∧ (servoInit s).pin = some 33
      ∧ (servoInit s).minPulseUs = 900
      ∧ (servoInit s).maxPulseUs = 2100
      ∧ servoInit (servoInit s) = servoInit s :=
  ⟨rfl, rfl, rfl, rfl, rfl, rfl⟩

/-- C5: every descending-phase write is immediately followed by a 1 ms
pause, a fixed 300 ms settle delay separates the phases, and the
ascending-phase writes carry no inter-step delay at all. -/
theorem C5_asymmetric_step_delays (d : Int) :
    servo d
        = descAngles.flatMap (fun p => [ServoEvent.write p, ServoEvent.delay 1])
            ++ [ServoEvent.delay 300]
            ++ ascAngles.map ServoEvent.write
            ++ [ServoEvent.delay (toUInt32Ms d)]
      ∧ delaysOf (ascAngles.map ServoEvent.write) = [] := by
  refine ⟨servo_structure d, ?_⟩
  decide

/-- C6: every angle commanded during a sweep lies in the closed range
[45, 176]; in particular neither 0 nor 180 is ever commanded. -/
theorem C6_angle_bounds (d : Int) (p : Int)
    (h : ServoEvent.write p ∈ servo d) :
    45 ≤ p ∧ p ≤ 176 ∧ p ≠ 0 ∧ p ≠ 180 := by
  have hp : p ∈ writesOf (servo d) :=
    List.mem_filterMap.mpr ⟨ServoEvent.write p, h, rfl⟩
  rw [writesOf_servo] at hp
  simp only [descAngles, ascAngles, List.mem_append, List.mem_map,
    List.mem_range] at hp
  rcases hp with ⟨i, hi, hpe⟩ | ⟨i, hi, hpe⟩ <;> omega

/-- C6 witness: the theorem instantiated at the first commanded angle,
176, of the sweep with cycle delay 0. -/
theorem C6_angle_bounds_witness :
    45 ≤ (176 : Int) ∧ (176 : Int) ≤ 176
      ∧ (176 : Int) ≠ 0 ∧ (176 : Int) ≠ 180 :=
  C6_angle_bounds 0 176 (by rw [servo_eq]; decide)

/-- C7: with a cycle delay of 0 the sweep still performs both phases and
the 300 ms settle pause in full, and its trailing pause requests 0 ms, so
the total requested blocking time is exactly 132 + 300 + 0 + 0 ms. -/
theorem C7_zero_cycle_delay :
    servo 0
        = descAngles.flatMap (fun p => [ServoEvent.write p, ServoEvent.delay 1])
            ++ [ServoEvent.delay 300]
            ++ ascAngles.map ServoEvent.write
            ++ [ServoEvent.delay 0]
      ∧ delayTotal (servo 0) = 132 + 300 + 0 + 0 := by
  have h0 : toUInt32Ms 0 = 0 := by decide
  constructor
  · rw [servo_structure 0, h0]
  · rw [delayTotal_servo 0, h0]

/-- C8: two successive sweep calls, from any starting state and with any
cycle delays, command exactly two full back-and-forth traversals; the
second call's trace is independent of the state the first call left
behind, and every call's first commanded angle is 176. -/
theorem C8_two_calls_independent_of_state (s s' : ServoState) (d1 d2 : Int) :
    writesOf ((servoRun s d1).2 ++ (servoRun (servoRun s d1).1 d2).2)
        = (descAngles ++ ascAngles) ++ (descAngles ++ ascAngles)
      ∧ (servoRun (servoRun s d1).1 d2).2 = (servoRun s' d2).2
      ∧ (writesOf ((servoRun s' d2).2)).head? = some 176 := by
  refine ⟨?_, rfl, ?_⟩
  · rw [writesOf_append]
    show writesOf (servo d1) ++ writesOf (servo d2) = _
    rw [writesOf_servo, writesOf_servo]
  · show (writesOf (servo d2)).head? = some 176
    rw [writesOf_servo]
    decide

/-- C9: the cycle-delay parameter is a signed integer, and a negative
value is converted modulo 2^32 at the final `delay` call, so a negative
argument yields an extremely long (at least 2^31 ms) trailing wait. -/
theorem C9_negative_delay_wraps (d : Int) (h1 : -(2 ^ 31) ≤ d) (h2 : d < 0) :
    (servo d).getLast? = some (ServoEvent.delay (toUInt32Ms d))
      ∧ (toUInt32Ms d : Int) = d + 2 ^ 32
      ∧ 2 ^ 31 ≤ toUInt32Ms d := by
  refine ⟨servo_getLast d, ?_, ?_⟩ <;> unfold toUInt32Ms <;> omega

/-- C9 witness: the theorem instantiated at cycle delay −1, whose
converted trailing wait is 4294967295 ms. -/
theorem C9_negative_delay_wraps_witness :
    (-(2 ^ 31) : Int) ≤ -1 ∧ (-1 : Int) < 0
      ∧ ((servo (-1)).getLast? = some (ServoEvent.delay (toUInt32Ms (-1)))
          ∧ (toUInt32Ms (-1) : Int) = -1 + 2 ^ 32
          ∧ 2 ^ 31 ≤ toUInt32Ms (-1))
      ∧ toUInt32Ms (-1) = 4294967295 :=
  ⟨by norm_num, by norm_num,
    C9_negative_delay_wraps (-1) (by norm_num) (by norm_num), by decide⟩

/-- C10: a sweep call never modifies the actuator's configuration: the
carrier frequency, pin attachment and pulse-width bounds are identical
before and after the call, for every cycle-delay argument. -/
theorem C10_sweep_preserves_config (s : ServoState) (d : Int) :
    ((servoRun s d).1).periodHertz = s.periodHertz
      ∧ ((servoRun s d).1).pin = s.pin
      ∧ ((servoRun s d).1).minPulseUs = s.minPulseUs
      ∧ ((servoRun s d).1).maxPulseUs = s.maxPulseUs :=
  foldl_applyEvent_config (servo d) s

end Flipper
